import Mathlib

/-!
# Verification of the flapper splitflap-display driver core

A shallow embedding, in Lean 4, of the core of `github.com/trapgate/flapper`
(`flapper.go`): the COBS + CRC32 frame codec (`encodeMsg` / `decodeMsg`), the
reader loop (`readFrames`), the reliable-command writer loop (`writeMsgs` /
`nextNonce`), the inbound dispatcher (`handleFromMsg` / `communicate`), and
the text-shaping pipeline (`PrepText` / `SetText`).

Byte buffers are modelled as `List Nat` with bytes `< 256`; 32-bit machine
arithmetic is modelled on `Nat` with explicit `% 2^32`.  Strings are modelled
as `List Char` (one `Char` per rune).
-/

set_option maxHeartbeats 1000000
set_option maxRecDepth 10000

namespace Flapper

/-! ## COBS byte stuffing

The repository frames messages with `github.com/dgryski/go-cobs`.  `Encode`
builds blocks of up to 254 non-zero data bytes; each block is preceded by a
code byte `length-of-data + 1` (`255` for a full block); a zero input byte
terminates the current block and is dropped.  `Decode` reads blocks and
re-inserts a zero after every non-full block that is not at the end of the
input.  The encoder is written here with an explicit accumulator `block`
holding the data bytes of the block currently being assembled (the Go code
back-patches the code byte into the output buffer instead). -/

def cobsEncodeAux : List Nat → List Nat → List Nat
  | block, [] => (block.length + 1) :: block
  | block, b :: rest =>
    if b = 0 then
      ((block.length + 1) :: block) ++ cobsEncodeAux [] rest
    else if block.length + 1 = 254 then
      (255 :: (block ++ [b])) ++ cobsEncodeAux [] rest
    else
      cobsEncodeAux (block ++ [b]) rest

def cobsEncode (src : List Nat) : List Nat :=
  cobsEncodeAux [] src

/-- `cobs.Decode`.  The Go loop keeps a cursor `ptr`; the bounds check
`ptr + int(code) > len(src)` becomes `rest.length + 1 < code` here, and the
trailing-zero condition `code < 0xFF && ptr != len(src)` becomes
`code < 255 ∧ rest.drop (code - 1) ≠ []`. -/
def cobsDecode : List Nat → Option (List Nat)
  | [] => some []
  | code :: rest =>
    if rest.length + 1 < code then none
    else
      match cobsDecode (rest.drop (code - 1)) with
      | none => none
      | some tail =>
        if code < 255 ∧ rest.drop (code - 1) ≠ [] then
          some (rest.take (code - 1) ++ 0 :: tail)
        else
          some (rest.take (code - 1) ++ tail)
termination_by l => l.length
decreasing_by
  simp only [List.length_cons, List.length_drop]
  omega

/-! ## CRC32 (IEEE)

`hash/crc32.ChecksumIEEE` from the Go standard library: the reflected
CRC-32/ISO-HDLC algorithm with polynomial `0xEDB88320`, initial state
`0xFFFFFFFF` and final complement.  The Go implementation is table-driven;
this is the defining bit-at-a-time algorithm it tabulates. -/

def crcPoly : Nat := 0xEDB88320

/-- One bit step: shift right, XOR the polynomial in when the low bit is set. -/
def crcStep (s : Nat) : Nat :=
  if s % 2 = 1 then (s >>> 1) ^^^ crcPoly else s >>> 1

/-- One byte step: XOR the byte into the state, then eight bit steps. -/
def crcUpdate (s b : Nat) : Nat := crcStep^[8] (s ^^^ b)

def crc32 (l : List Nat) : Nat := (l.foldl crcUpdate 0xFFFFFFFF) ^^^ 0xFFFFFFFF

/-! ## Frame codec (`encodeMsg` / `decodeMsg`)

`encodeMsg` marshals a protobuf message and then wraps the resulting byte
buffer; `decodeMsg` unwraps a received frame down to the byte buffer handed
to the protobuf parser.  The marshalling is external to this repository, so
the codec is modelled on the raw payload bytes: `DecodeResult.ok payload`
is the state in which `decodeMsg` hands `payload` to `gproto.Unmarshal`. -/

/-- `binary.LittleEndian.PutUint32` (`byte(v)` truncation is `% 256`;
`v >> 8k` is division by `2^(8k)`). -/
def toLE4 (n : Nat) : List Nat :=
  [n % 256, n / 256 % 256, n / 65536 % 256, n / 16777216 % 256]

/-- `binary.LittleEndian.Uint32`. -/
def fromLE4 (l : List Nat) : Nat :=
  l.getD 0 0 + l.getD 1 0 * 256 + l.getD 2 0 * 65536 + l.getD 3 0 * 16777216

/-- `encodeMsg` after marshalling: append the little-endian CRC32 of the
payload, COBS-stuff, append the terminating zero byte. -/
def encodeFrame (p : List Nat) : List Nat :=
  cobsEncode (p ++ toLE4 (crc32 p)) ++ [0]

inductive DecodeResult : Type
  | ok (payload : List Nat)
  | errEmptyFrame
  | errCobs
  | errCrc
  | panicked
deriving DecidableEq

/-- `decodeMsg`.  The Go code checks `len(b) < 5` on the *stuffed* frame,
strips the final delimiter byte, COBS-decodes, and then slices
`b[len(b)-4:]`: when the unstuffed buffer is shorter than 4 bytes that
slice expression has a negative start index and the function panics at
runtime, modelled by `DecodeResult.panicked`. -/
def decodeFrame (b : List Nat) : DecodeResult :=
  if b.length < 5 then DecodeResult.errEmptyFrame
  else
    match cobsDecode (b.take (b.length - 1)) with
    | none => DecodeResult.errCobs
    | some u =>
      if u.length < 4 then DecodeResult.panicked
      else if crc32 (u.take (u.length - 4)) ≠ fromLE4 (u.drop (u.length - 4)) then
        DecodeResult.errCrc
      else DecodeResult.ok (u.take (u.length - 4))

/-! ## Reader loop (`readFrames`)

One iteration of the loop: a blocking `ReadBytes(0)` either yields a frame or
fails; on failure the Go code executes `panic("failed to read from display")`,
on a decode error it logs and continues, otherwise it forwards the decoded
message to the dispatcher. -/

inductive ReadEvent : Type
  | bytes (frame : List Nat)
  | readError
deriving DecidableEq

inductive ReaderOutcome : Type
  | delivered (payload : List Nat)
  | skipped
  | crashed
deriving DecidableEq

def readFramesStep : ReadEvent → ReaderOutcome
  | ReadEvent.readError => ReaderOutcome.crashed
  | ReadEvent.bytes b =>
    match decodeFrame b with
    | DecodeResult.ok p => ReaderOutcome.delivered p
    | DecodeResult.panicked => ReaderOutcome.crashed
    | _ => ReaderOutcome.skipped

/-! ## Acknowledgment tags (`nextNonce`)

`Display.nonce` is a Go `uint32`; `nextNonce` returns `nonce % 255` and then
increments the counter (wrapping at `2^32`). -/

def uint32Mod : Nat := 2 ^ 32

/-- `nextNonce`: the tag handed out for the current send, and the new value
of the 32-bit counter. -/
def nextNonce (nonce : Nat) : Nat × Nat :=
  (nonce % 255, (nonce + 1) % uint32Mod)

/-- The counter value after `i` completed sends starting from `n0`. -/
def nonceAfter (n0 i : Nat) : Nat :=
  (fun s => (s + 1) % uint32Mod)^[i] n0

/-- The tag assigned to the `i`-th send (0-based) starting from counter
value `n0`: it is `(nextNonce …).1` of the `i`-th counter value. -/
def tagAt (n0 i : Nat) : Nat := (nonceAfter n0 i) % 255

/-! ## Writer loop (`writeMsgs`)

The inner retry loop of `writeMsgs` for one queued request: write the frame,
arm a 250 ms timer, then `select` on the `acks` channel versus the timer.  A
matching ack completes the request (`req.ch <- nil`); a non-matching ack
leaves `acked` false so the loop immediately rewrites the same frame; a timer
expiry also rewrites the same frame.  `req.msg.Nonce` is set once before the
loop and `encodeMsg` is deterministic, so every (re)transmission is the
byte-for-byte identical frame.  The loop is driven here by the sequence of
`select` outcomes it observes; an exhausted event list leaves the request
pending (the goroutine blocked in `select`). -/

def retryTimeout : Nat := 250

inductive WEvent : Type
  | ack (tag : Nat)
  | timeout
deriving DecidableEq

/-- Runs the retry loop for one request.  Returns the list of transmitted
frames and whether the request completed (the requester was signalled
success).  Transport write errors are outside this model, so no error is
ever signalled here. -/
def writerLoop (frame : List Nat) (nonce : Nat) : List WEvent → List (List Nat) × Bool
  | [] => ([frame], false)
  | WEvent.timeout :: rest =>
    let r := writerLoop frame nonce rest
    (frame :: r.1, r.2)
  | WEvent.ack t :: rest =>
    if t = nonce then ([frame], true)
    else
      let r := writerLoop frame nonce rest
      (frame :: r.1, r.2)

/-! ## Inbound dispatcher (`communicate` / `handleFromMsg`)

The dispatcher goroutine consumes decoded messages in arrival order.  A
status report replaces the cached state (`d.cells`, `d.text`); a log line is
printed; an ack is forwarded with `acks <- nonce` on an *unbuffered* channel.
`writeMsgs` only receives from `acks` while a request is pending; when the
writer is idle (blocked on `toDisplay`), the send blocks the dispatcher
goroutine, so the ack and every message behind it stay unprocessed until a
new request arrives.  `dispatchIdle` models the dispatcher while the writer
is idle: it returns the resulting cached state and the suffix of messages
left unprocessed. -/

def runeSet : List Char :=
  " abcdefghijklmnopqrstuvwxyz0123456789.,".toList ++ [Char.ofNat 39]

/-- `currentText`: Go writes `runeSet[m.FlapIndex]` for each module.  (The Go
expression panics on a flap index outside the rune set; no claim concerns
that path, so the lookup is totalised with a default here.) -/
def currentText (modules : List Nat) : List Char :=
  modules.map (fun fi => runeSet.getD fi ' ')

structure DispState : Type where
  cells : Nat
  text : List Char
deriving DecidableEq

/-- The cached display state made by `NewDisplay`: 24 cells, empty text. -/
def newDisplayState : DispState :=
  { cells := 24, text := [] }

/-- `handleFromMsg` on a status report: `d.cells = len(modules)`,
`d.text = currentText(...)`. -/
def updateStatus (_st : DispState) (modules : List Nat) : DispState :=
  { cells := modules.length, text := currentText modules }

inductive InMsg : Type
  | status (modules : List Nat)
  | log (line : List Char)
  | ack (tag : Nat)
deriving DecidableEq

def dispatchIdle (st : DispState) : List InMsg → DispState × List InMsg
  | [] => (st, [])
  | InMsg.status ms :: rest => dispatchIdle (updateStatus st ms) rest
  | InMsg.log _ :: rest => dispatchIdle st rest
  | InMsg.ack t :: rest => (st, InMsg.ack t :: rest)

/-! ## Text shaping (`PrepText`, `normalize`, `SetText`)

Go strings are UTF-8 byte strings.  The pipeline stages up to the final
per-line shaping decode whole runes, so they are modelled on `List Char`
(one entry per rune); the width computations of `muesli/reflow`
(`go-runewidth` display cells) are modelled by `runeWidth`, and the final
byte-level operations of `PrepText` (`len(line) > 12`, `line[:12]`, string
concatenation) and of `SetText` (`for i, r := range text`, which yields the
*byte* offset of each rune) are modelled on the UTF-8 byte string
(`List Nat`, one entry per byte). -/

/-- Display-cell width of a codepoint, `mattn/go-runewidth` at the library
boundary: control characters (and the main combining-mark block) are
zero-width, the East Asian wide/fullwidth ranges are double-width, everything
else single-width.  The wide table below carries the principal ranges of the
library (all of them lie at or above U+1100, which is what the byte-length
facts rely on). -/
def isWideNat (n : Nat) : Bool :=
  decide ((0x1100 ≤ n ∧ n ≤ 0x115F) ∨ (0x2E80 ≤ n ∧ n ≤ 0x303E) ∨
    (0x3041 ≤ n ∧ n ≤ 0x33FF) ∨ (0x3400 ≤ n ∧ n ≤ 0x4DBF) ∨
    (0x4E00 ≤ n ∧ n ≤ 0x9FFF) ∨ (0xA000 ≤ n ∧ n ≤ 0xA4CF) ∨
    (0xAC00 ≤ n ∧ n ≤ 0xD7A3) ∨ (0xF900 ≤ n ∧ n ≤ 0xFAFF) ∨
    (0xFE30 ≤ n ∧ n ≤ 0xFE4F) ∨ (0xFF00 ≤ n ∧ n ≤ 0xFF60) ∨
    (0xFFE0 ≤ n ∧ n ≤ 0xFFE6) ∨ (0x20000 ≤ n ∧ n ≤ 0x3FFFD))

def runeWidthNat (n : Nat) : Nat :=
  if n < 0x20 then 0
  else if 0x300 ≤ n ∧ n ≤ 0x36F then 0
  else if isWideNat n then 2
  else 1

def runeWidth (c : Char) : Nat := runeWidthNat c.toNat

/-- `ansi.PrintableRuneWidth`: the display width of a rune sequence. -/
def lineWidth (l : List Char) : Nat := (l.map runeWidth).sum

/-- `utf8.EncodeRune` on a valid scalar value (Go iterates and re-emits
already-valid runes, and `Char` carries only valid scalars). -/
def utf8EncodeNat (n : Nat) : List Nat :=
  if n < 0x80 then [n]
  else if n < 0x800 then [0xC0 ||| (n >>> 6), 0x80 ||| (n &&& 0x3F)]
  else if n < 0x10000 then
    [0xE0 ||| (n >>> 12), 0x80 ||| ((n >>> 6) &&& 0x3F), 0x80 ||| (n &&& 0x3F)]
  else
    [0xF0 ||| (n >>> 18), 0x80 ||| ((n >>> 12) &&& 0x3F),
      0x80 ||| ((n >>> 6) &&& 0x3F), 0x80 ||| (n &&& 0x3F)]

def utf8EncodeChar (c : Char) : List Nat := utf8EncodeNat c.toNat

/-- The UTF-8 byte string of a rune sequence. -/
def utf8Bytes (l : List Char) : List Nat := (l.map utf8EncodeChar).flatten

/-- `d.normalize`: the `golang.org/x/text` chain (NFD, strip the combining
marks, NFC) followed by `strings.ToLower`, modelled at the library boundary:
the main combining-mark block U+0300-U+036F is dropped and each rune is
lower-cased (ASCII case mapping).  Decomposition of precomposed letters and
non-ASCII case mappings are outside this model; no theorem below depends on
a rune that has a decomposition or a non-ASCII case mapping. -/
def normalize (s : List Char) : List Char :=
  (s.filter (fun c => ! decide (0x300 ≤ c.toNat ∧ c.toNat ≤ 0x36F))).map Char.toLower

/-! `wordwrap.String` (muesli/reflow/wordwrap, KeepNewlines on): the writer
keeps a finished-output buffer, the width of the current line already
emitted, a buffer of pending spaces and a buffer for the word being read.
Pending spaces are flushed before a word and discarded at a line break.
(The library also treats `-` as a breakpoint and all Unicode spaces like
`' '`; neither reaches the theorems below.) -/

structure WwState : Type where
  out : List Char
  lineLen : Nat
  space : Nat
  word : List Char

/-- `addWord` + `addSpace`: flush the pending spaces and the pending word
onto the current line. -/
def wwAddWord (st : WwState) : WwState :=
  if st.word = [] then st
  else
    { out := st.out ++ List.replicate st.space ' ' ++ st.word,
      lineLen := st.lineLen + st.space + lineWidth st.word,
      space := 0, word := [] }

/-- `addNewLine`: emit a newline, reset the line width, drop pending spaces. -/
def wwAddNewLine (st : WwState) : WwState :=
  { out := st.out ++ ['\n'], lineLen := 0, space := 0, word := st.word }

def wwStep (limit : Nat) (st : WwState) (c : Char) : WwState :=
  if c = '\n' then wwAddNewLine (wwAddWord st)
  else if c = ' ' then
    let st1 := wwAddWord st
    { st1 with space := st1.space + 1 }
  else
    let st1 := { st with word := st.word ++ [c] }
    if limit < st1.lineLen + st1.space + lineWidth st1.word ∧
        lineWidth st1.word < limit then
      wwAddNewLine st1
    else st1

def wordwrap (limit : Nat) (s : List Char) : List Char :=
  (wwAddWord (s.foldl (wwStep limit) ⟨[], 0, 0, []⟩)).out

/-! `wrap.String` (muesli/reflow/wrap, defaults: KeepNewlines on,
PreserveSpace off): if the whole input's display width fits the limit it is
passed through unchanged; otherwise runes are copied one by one, a newline
is forced whenever the next rune would exceed the limit, and a space at the
start of a forcefully broken line is skipped. -/

structure HwState : Type where
  out : List Char
  lineLen : Nat
  forced : Bool

def hwStep (limit : Nat) (st : HwState) (c : Char) : HwState :=
  if c = '\n' then { out := st.out ++ ['\n'], lineLen := 0, forced := false }
  else
    let w := runeWidth c
    let st1 : HwState :=
      if limit < st.lineLen + w then
        { out := st.out ++ ['\n'], lineLen := 0, forced := true }
      else st
    if st1.lineLen = 0 then
      if st1.forced ∧ c = ' ' then st1
      else { out := st1.out ++ [c], lineLen := w, forced := st1.forced }
    else { out := st1.out ++ [c], lineLen := st1.lineLen + w, forced := false }

def hardWrap (limit : Nat) (s : List Char) : List Char :=
  if limit = 0 ∨ lineWidth s ≤ limit then s
  else (s.foldl (hwStep limit) ⟨[], 0, false⟩).out

/-- Split a rune list at the first newline, if any. -/
def breakAtNL : List Char → Option (List Char × List Char)
  | [] => none
  | c :: rest =>
    if c = '\n' then some ([], rest)
    else
      match breakAtNL rest with
      | none => none
      | some pq => some (c :: pq.1, pq.2)

/-- `strings.SplitN(s, "\n", n)` for `n ≥ 1` (Go returns `nil` for `n = 0`;
the source calls it with `n = 3`). -/
def goSplitN : Nat → List Char → List (List Char)
  | 0, _ => []
  | 1, s => [s]
  | n + 2, s =>
    match breakAtNL s with
    | none => [s]
    | some pq => pq.1 :: goSplitN (n + 1) pq.2

/-- `padding.String(line, w)`: pad with trailing spaces up to *display
width* `w` (no-op on lines already at least that wide). -/
def padToWidth (w : Nat) (l : List Char) : List Char :=
  l ++ List.replicate (w - lineWidth l) ' '

/-- The per-line body of `PrepText`, producing the row's byte string:
substitute a single space for an empty line (`len(line) == 0` in bytes holds
exactly when the line has no runes), pad to display width 12, then apply the
byte-level `if len(line) > 12 { line = line[:12] }` — a *byte* truncation
that can cut a multi-byte rune in half. -/
def prepLineBytes (l : List Char) : List Nat :=
  let l1 := if l = [] then [' '] else l
  let bs := utf8Bytes (padToWidth 12 l1)
  if 12 < bs.length then bs.take 12 else bs

/-- `Display.PrepText`: normalize, word-wrap then hard-wrap to 12 display
cells, split into at most 3 lines, ensure a second line exists, shape the
first two lines and concatenate their byte strings (`strings.Join`). -/
def prepText (s : List Char) : List Nat :=
  let t := hardWrap 12 (wordwrap 12 (normalize s))
  let lines := goSplitN 3 t
  let lines2 := if lines.length < 2 then lines ++ [[' ']] else lines
  prepLineBytes (lines2.getD 0 []) ++ prepLineBytes (lines2.getD 1 [])

/-! `for i, r := range text` over a Go string yields the *byte offset* and
the rune decoded at it; malformed bytes yield U+FFFD and advance one byte
(`utf8.DecodeRuneInString`). -/

def contByte (b : Nat) : Bool := decide (0x80 ≤ b ∧ b ≤ 0xBF)

/-- Valid second bytes of a 3-byte sequence, per leading byte. -/
def accept3 (b0 b1 : Nat) : Bool :=
  if b0 = 0xE0 then decide (0xA0 ≤ b1 ∧ b1 ≤ 0xBF)
  else if b0 = 0xED then decide (0x80 ≤ b1 ∧ b1 ≤ 0x9F)
  else contByte b1

/-- Valid second bytes of a 4-byte sequence, per leading byte. -/
def accept4 (b0 b1 : Nat) : Bool :=
  if b0 = 0xF0 then decide (0x90 ≤ b1 ∧ b1 ≤ 0xBF)
  else if b0 = 0xF4 then decide (0x80 ≤ b1 ∧ b1 ≤ 0x8F)
  else contByte b1

/-- One step of the range loop: the decoded rune, the number of bytes
consumed, and the remaining bytes. -/
def utf8Step : List Nat → Nat × Nat × List Nat
  | [] => (0xFFFD, 1, [])
  | b0 :: rest =>
    if b0 < 0x80 then (b0, 1, rest)
    else if b0 < 0xC2 then (0xFFFD, 1, rest)
    else if b0 ≤ 0xDF then
      match rest with
      | b1 :: rest2 =>
        if contByte b1 then
          (((b0 &&& 0x1F) <<< 6) ||| (b1 &&& 0x3F), 2, rest2)
        else (0xFFFD, 1, rest)
      | [] => (0xFFFD, 1, rest)
    else if b0 ≤ 0xEF then
      match rest with
      | b1 :: b2 :: rest3 =>
        if accept3 b0 b1 && contByte b2 then
          (((b0 &&& 0x0F) <<< 12) ||| ((b1 &&& 0x3F) <<< 6) ||| (b2 &&& 0x3F),
            3, rest3)
        else (0xFFFD, 1, rest)
      | _ => (0xFFFD, 1, rest)
    else if b0 ≤ 0xF4 then
      match rest with
      | b1 :: b2 :: b3 :: rest4 =>
        if accept4 b0 b1 && contByte b2 && contByte b3 then
          (((b0 &&& 0x07) <<< 18) ||| ((b1 &&& 0x3F) <<< 12) |||
            ((b2 &&& 0x3F) <<< 6) ||| (b3 &&& 0x3F), 4, rest4)
        else (0xFFFD, 1, rest)
      | _ => (0xFFFD, 1, rest)
    else (0xFFFD, 1, rest)

/-- The (byte offset, rune) pairs of the range loop.  `fuel` bounds the
number of iterations; the wrapper passes the byte length, which suffices
because every step consumes at least one byte. -/
def utf8Iters : Nat → Nat → List Nat → List (Nat × Nat)
  | 0, _, _ => []
  | _ + 1, _, [] => []
  | fuel + 1, off, b0 :: rest =>
    let s := utf8Step (b0 :: rest)
    (off, s.1) :: utf8Iters fuel (off + s.2.1) s.2.2

def decodeUtf8From (off : Nat) (bs : List Nat) : List (Nat × Nat) :=
  utf8Iters bs.length off bs

/-- `d.runes` lookup on a decoded rune: the Go map sends a rune of `runeSet`
to its index and any other rune to the zero value. -/
def runeSetNat : List Nat := runeSet.map Char.toNat

def runeIdxN (r : Nat) : Nat :=
  if r ∈ runeSetNat then runeSetNat.indexOf r else 0

/-- `Display.SetText` after `PrepText`: allocate `cells` module commands and,
for each `(i, r)` produced by ranging over the prepared *byte* string, write
a command at byte offset `i`.  `mc[i]` panics (index out of range) as soon
as an offset reaches `cells`, modelled as `none`; slots never written keep
their zero value (`nil` command), modelled as `none` entries. -/
def setTextCmds (cells : Nat) (textBytes : List Nat) : Option (List (Option Nat)) :=
  let iters := decodeUtf8From 0 textBytes
  if iters.all (fun p => decide (p.1 < cells)) then
    some ((List.range cells).map (fun i =>
      (iters.find? (fun p => decide (p.1 = i))).map (fun p => runeIdxN p.2)))
  else none

/-! ## COBS lemmas -/

theorem cobsDecode_nil : cobsDecode [] = some [] := by
  simp [cobsDecode]

theorem cobsDecode_cons (code : Nat) (rest : List Nat) :
    cobsDecode (code :: rest) =
      if rest.length + 1 < code then none
      else
        match cobsDecode (rest.drop (code - 1)) with
        | none => none
        | some tail =>
          if code < 255 ∧ rest.drop (code - 1) ≠ [] then
            some (rest.take (code - 1) ++ 0 :: tail)
          else
            some (rest.take (code - 1) ++ tail) := by
  rw [cobsDecode]

theorem cobsEncodeAux_ne_nil (src : List Nat) : ∀ block : List Nat,
    cobsEncodeAux block src ≠ [] := by
  induction src with
  | nil => intro block; simp [cobsEncodeAux]
  | cons b rest ih =>
    intro block
    by_cases hb : b = 0
    · simp [cobsEncodeAux, hb]
    · by_cases hf : block.length + 1 = 254
      · simp [cobsEncodeAux, hb, hf]
      · simpa [cobsEncodeAux, hb, hf] using ih (block ++ [b])

theorem cobsEncodeAux_length (src : List Nat) : ∀ block : List Nat,
    block.length + src.length + 1 ≤ (cobsEncodeAux block src).length := by
  induction src with
  | nil => intro block; simp [cobsEncodeAux]
  | cons b rest ih =>
    intro block
    by_cases hb : b = 0
    · have h := ih []
      simp only [cobsEncodeAux, hb, if_true, List.length_append, List.length_cons,
        List.length_nil] at h ⊢
      omega
    · by_cases hf : block.length + 1 = 254
      · have h := ih []
        simp only [cobsEncodeAux, if_neg hb, if_pos hf, List.length_append,
          List.length_cons, List.length_nil] at h ⊢
        omega
      · have h := ih (block ++ [b])
        simp only [cobsEncodeAux, if_neg hb, if_neg hf, List.length_append,
          List.length_cons, List.length_nil] at h ⊢
        omega

theorem cobsEncode_length (src : List Nat) :
    src.length + 1 ≤ (cobsEncode src).length := by
  have h := cobsEncodeAux_length src []
  simpa [cobsEncode] using h

/-- Every byte of the stuffed output is non-zero. -/
theorem cobsEncodeAux_ne_zero (src : List Nat) : ∀ block : List Nat,
    (∀ x ∈ block, x ≠ 0) → ∀ y ∈ cobsEncodeAux block src, y ≠ 0 := by
  induction src with
  | nil =>
    intro block hblock y hy
    simp only [cobsEncodeAux, List.mem_cons] at hy
    rcases hy with h | h
    · omega
    · exact hblock y h
  | cons b rest ih =>
    intro block hblock y hy
    by_cases hb : b = 0
    · simp only [cobsEncodeAux, hb, if_true, List.mem_append, List.mem_cons] at hy
      rcases hy with (h | h) | h
      · omega
      · exact hblock y h
      · exact ih [] (by simp) y h
    · by_cases hf : block.length + 1 = 254
      · simp only [cobsEncodeAux, if_neg hb, if_pos hf, List.mem_append,
          List.mem_cons, List.mem_singleton, List.not_mem_nil, or_false] at hy
        rcases hy with (h | h | h) | h
        · omega
        · exact hblock y h
        · subst h; exact hb
        · exact ih [] (by simp) y h
      · refine ih (block ++ [b]) ?_ y (by simpa [cobsEncodeAux, hb, hf] using hy)
        intro x hx
        rcases List.mem_append.mp hx with h' | h'
        · exact hblock x h'
        · simp only [List.mem_singleton] at h'
          subst h'; exact hb

theorem cobsEncode_zero_not_mem (src : List Nat) : (0 : Nat) ∉ cobsEncode src := by
  intro h
  exact cobsEncodeAux_ne_zero src [] (by simp) 0 h rfl

/-- COBS round trip: decoding an encoding, with a partially filled block
pending, recovers the pending block followed by the remaining input. -/
theorem cobsDecode_encodeAux (src : List Nat) : ∀ block : List Nat,
    block.length ≤ 253 →
    cobsDecode (cobsEncodeAux block src) = some (block ++ src) := by
  induction src with
  | nil =>
    intro block hb
    simp only [cobsEncodeAux]
    rw [cobsDecode_cons]
    simp [cobsDecode_nil]
  | cons b rest ih =>
    intro block hb
    by_cases hzero : b = 0
    · have hne := cobsEncodeAux_ne_nil rest ([] : List Nat)
      have hrec := ih [] (by simp)
      simp only [cobsEncodeAux, hzero, if_true]
      rw [List.cons_append, cobsDecode_cons]
      have hsub : block.length + 1 - 1 = block.length := by omega
      rw [hsub, List.drop_left, List.take_left]
      simp only [hrec, List.nil_append]
      rw [if_pos (show block.length + 1 < 255 ∧ cobsEncodeAux [] rest ≠ [] from
        ⟨by omega, hne⟩)]
      split
      · next h => simp only [List.length_append] at h; omega
      · rfl
    · by_cases hfull : block.length + 1 = 254
      · have hne := cobsEncodeAux_ne_nil rest ([] : List Nat)
        have hrec := ih [] (by simp)
        simp only [cobsEncodeAux, if_neg hzero, if_pos hfull]
        rw [List.cons_append, cobsDecode_cons]
        have hsub : (255 : Nat) - 1 = (block ++ [b]).length := by
          simp only [List.length_append, List.length_cons, List.length_nil]
          omega
        rw [hsub, List.drop_left, List.take_left]
        simp only [hrec, List.nil_append]
        rw [if_neg (show ¬ ((255 : Nat) < 255 ∧ cobsEncodeAux [] rest ≠ []) by simp)]
        split
        · next h =>
            have hpos := List.length_pos.mpr hne
            simp only [List.length_append, List.length_cons, List.length_nil] at h
            omega
        · simp [List.append_assoc]
      · have hrec := ih (block ++ [b]) (by
          simp only [List.length_append, List.length_cons, List.length_nil]
          omega)
        simp only [cobsEncodeAux, if_neg hzero, if_neg hfull]
        rw [hrec]
        simp [List.append_assoc]

theorem cobsDecode_cobsEncode (src : List Nat) :
    cobsDecode (cobsEncode src) = some src := by
  simpa [cobsEncode] using cobsDecode_encodeAux src [] (by simp)

/-! ## CRC32 lemmas

The detection argument is the linearity of the CRC register over XOR: each
bit step distributes over XOR and sends no non-zero 32-bit value to zero, so
two message prefixes whose states differ keep differing. -/

theorem crcStep_eq_mul (s : Nat) :
    crcStep s = (s >>> 1) ^^^ (s % 2) * crcPoly := by
  rcases Nat.mod_two_eq_zero_or_one s with h | h <;> simp [crcStep, h]

theorem mod_two_xor (a b : Nat) : (a ^^^ b) % 2 = (a % 2) ^^^ (b % 2) := by
  rw [← Nat.and_one_is_mod (a ^^^ b), ← Nat.and_one_is_mod a, ← Nat.and_one_is_mod b,
    Nat.and_xor_distrib_right]

theorem shiftRight_xor (a b n : Nat) :
    (a ^^^ b) >>> n = (a >>> n) ^^^ (b >>> n) := by
  apply Nat.eq_of_testBit_eq
  intro i
  simp [Nat.testBit_shiftRight, Nat.testBit_xor]

theorem xor_mix (x u y v : Nat) :
    (x ^^^ u) ^^^ (y ^^^ v) = (x ^^^ y) ^^^ (u ^^^ v) := by
  apply Nat.eq_of_testBit_eq
  intro i
  simp only [Nat.testBit_xor]
  rcases x.testBit i <;> rcases u.testBit i <;> rcases y.testBit i <;>
    rcases v.testBit i <;> rfl

theorem crcStep_xor (a b : Nat) : crcStep (a ^^^ b) = crcStep a ^^^ crcStep b := by
  rw [crcStep_eq_mul a, crcStep_eq_mul b, crcStep_eq_mul (a ^^^ b),
    shiftRight_xor, mod_two_xor]
  have hmul : ((a % 2) ^^^ (b % 2)) * crcPoly =
      (a % 2) * crcPoly ^^^ (b % 2) * crcPoly := by
    rcases Nat.mod_two_eq_zero_or_one a with ha | ha <;>
      rcases Nat.mod_two_eq_zero_or_one b with hb | hb <;>
        simp [ha, hb, Nat.xor_self]
  rw [hmul, xor_mix]

theorem crcStep_lt (s : Nat) (h : s < 2 ^ 32) : crcStep s < 2 ^ 32 := by
  rw [crcStep_eq_mul]
  apply Nat.xor_lt_two_pow
  · have hle : s >>> 1 ≤ s := by
      rw [Nat.shiftRight_eq_div_pow]
      exact Nat.div_le_self s (2 ^ 1)
    exact lt_of_le_of_lt hle h
  · rcases Nat.mod_two_eq_zero_or_one s with h2 | h2 <;> simp [h2, crcPoly]

theorem crcStep_ne_zero (s : Nat) (h : s < 2 ^ 32) (hs : s ≠ 0) : crcStep s ≠ 0 := by
  intro hc
  rw [crcStep_eq_mul] at hc
  have heq : s >>> 1 = (s % 2) * crcPoly := Nat.xor_eq_zero.mp hc
  rw [Nat.shiftRight_eq_div_pow, pow_one] at heq
  have h32 : s < 4294967296 := lt_of_lt_of_le h (by norm_num)
  rcases Nat.mod_two_eq_zero_or_one s with h2 | h2
  · rw [h2, Nat.zero_mul] at heq
    omega
  · rw [h2, Nat.one_mul] at heq
    rw [show crcPoly = 3988292384 from rfl] at heq
    omega

theorem crcIter_xor (n a b : Nat) :
    crcStep^[n] (a ^^^ b) = crcStep^[n] a ^^^ crcStep^[n] b := by
  induction n with
  | zero => simp
  | succ k ih => simp only [Function.iterate_succ_apply', ih, crcStep_xor]

theorem crcIter_lt (n s : Nat) (h : s < 2 ^ 32) : crcStep^[n] s < 2 ^ 32 := by
  induction n with
  | zero => simpa using h
  | succ k ih =>
    rw [Function.iterate_succ_apply']
    exact crcStep_lt _ ih

theorem crcIter_ne_zero (n s : Nat) (h : s < 2 ^ 32) (hs : s ≠ 0) :
    crcStep^[n] s ≠ 0 := by
  induction n with
  | zero => simpa using hs
  | succ k ih =>
    rw [Function.iterate_succ_apply']
    exact crcStep_ne_zero _ (crcIter_lt k s h) ih

theorem crcUpdate_lt (s b : Nat) (hs : s < 2 ^ 32) (hb : b < 2 ^ 32) :
    crcUpdate s b < 2 ^ 32 :=
  crcIter_lt 8 _ (Nat.xor_lt_two_pow hs hb)

/-- Two distinct 32-bit states remain distinct after absorbing the same byte. -/
theorem crcUpdate_state_ne (s t b : Nat) (hs : s < 2 ^ 32) (ht : t < 2 ^ 32)
    (hne : s ≠ t) : crcUpdate s b ≠ crcUpdate t b := by
  intro heq
  apply hne
  have h0 : crcUpdate s b ^^^ crcUpdate t b = 0 := by rw [heq, Nat.xor_self]
  rw [crcUpdate, crcUpdate, ← crcIter_xor, xor_mix, Nat.xor_self, Nat.xor_zero] at h0
  by_cases hz : s ^^^ t = 0
  · exact Nat.xor_eq_zero.mp hz
  · exact absurd h0 (crcIter_ne_zero 8 _ (Nat.xor_lt_two_pow hs ht) hz)

/-- One state absorbing two distinct bytes yields two distinct states. -/
theorem crcUpdate_byte_ne (s b c : Nat) (hb : b < 256) (hc : c < 256)
    (hne : b ≠ c) : crcUpdate s b ≠ crcUpdate s c := by
  intro heq
  apply hne
  have h0 : crcUpdate s b ^^^ crcUpdate s c = 0 := by rw [heq, Nat.xor_self]
  rw [crcUpdate, crcUpdate, ← crcIter_xor, xor_mix, Nat.xor_self, Nat.zero_xor] at h0
  by_cases hz : b ^^^ c = 0
  · exact Nat.xor_eq_zero.mp hz
  · have hlt : b ^^^ c < 2 ^ 32 := by
      have h8 : b ^^^ c < 2 ^ 8 :=
        Nat.xor_lt_two_pow (lt_of_lt_of_le hb (by norm_num))
          (lt_of_lt_of_le hc (by norm_num))
      exact lt_trans h8 (by norm_num)
    exact absurd h0 (crcIter_ne_zero 8 _ hlt hz)

theorem foldl_crcUpdate_lt (l : List Nat) : ∀ s : Nat, s < 2 ^ 32 →
    (∀ b ∈ l, b < 256) → l.foldl crcUpdate s < 2 ^ 32 := by
  induction l with
  | nil => intro s hs _; simpa using hs
  | cons b rest ih =>
    intro s hs hb
    simp only [List.foldl_cons]
    refine ih _ (crcUpdate_lt s b hs ?_) (fun x hx => hb x (by simp [hx]))
    exact lt_trans (hb b (by simp)) (by norm_num)

theorem foldl_crcUpdate_ne (l : List Nat) : ∀ s t : Nat, s < 2 ^ 32 → t < 2 ^ 32 →
    (∀ b ∈ l, b < 256) → s ≠ t → l.foldl crcUpdate s ≠ l.foldl crcUpdate t := by
  induction l with
  | nil => intro s t _ _ _ h; simpa using h
  | cons b rest ih =>
    intro s t hs ht hb hne
    have hbb : b < 2 ^ 32 := lt_trans (hb b (by simp)) (by norm_num)
    simp only [List.foldl_cons]
    exact ih _ _ (crcUpdate_lt s b hs hbb) (crcUpdate_lt t b ht hbb)
      (fun x hx => hb x (by simp [hx])) (crcUpdate_state_ne s t b hs ht hne)

theorem foldl_set_ne (p : List Nat) : ∀ (i : Nat) (hi : i < p.length) (c s : Nat),
    (∀ b ∈ p, b < 256) → c < 256 → s < 2 ^ 32 → c ≠ p.get ⟨i, hi⟩ →
    (p.set i c).foldl crcUpdate s ≠ p.foldl crcUpdate s := by
  induction p with
  | nil => intro i hi; simp at hi
  | cons b rest ih =>
    intro i hi c s hb hc hs hne
    cases i with
    | zero =>
      simp only [List.set_cons_zero, List.foldl_cons]
      have hbb : b < 256 := hb b (by simp)
      refine foldl_crcUpdate_ne rest _ _
        (crcUpdate_lt s c hs (lt_trans hc (by norm_num)))
        (crcUpdate_lt s b hs (lt_trans hbb (by norm_num)))
        (fun x hx => hb x (by simp [hx])) ?_
      exact crcUpdate_byte_ne s c b hc hbb (by simpa using hne)
    | succ j =>
      simp only [List.set_cons_succ, List.foldl_cons]
      have hbb : b < 2 ^ 32 := lt_trans (hb b (by simp)) (by norm_num)
      exact ih j (by simpa using hi) c (crcUpdate s b)
        (fun x hx => hb x (by simp [hx])) hc (crcUpdate_lt s b hs hbb)
        (by simpa using hne)

theorem xor_cancel_right_eq (a b c : Nat) (h : a ^^^ c = b ^^^ c) : a = b := by
  have h2 := congrArg (fun x => x ^^^ c) h
  simpa [Nat.xor_assoc, Nat.xor_self, Nat.xor_zero] using h2

theorem crc32_lt (l : List Nat) (hb : ∀ b ∈ l, b < 256) : crc32 l < 2 ^ 32 := by
  rw [crc32]
  exact Nat.xor_lt_two_pow (foldl_crcUpdate_lt l 0xFFFFFFFF (by norm_num) hb)
    (by norm_num)

/-- CRC32 separates lists differing in exactly one byte. -/
theorem crc32_set_ne (p : List Nat) (i : Nat) (hi : i < p.length) (c : Nat)
    (hb : ∀ b ∈ p, b < 256) (hc : c < 256) (hne : c ≠ p.get ⟨i, hi⟩) :
    crc32 (p.set i c) ≠ crc32 p := by
  intro heq
  rw [crc32, crc32] at heq
  exact foldl_set_ne p i hi c 0xFFFFFFFF hb hc (by norm_num) hne
    (xor_cancel_right_eq _ _ _ heq)

theorem fromLE4_toLE4 (n : Nat) (h : n < 2 ^ 32) : fromLE4 (toLE4 n) = n := by
  simp only [toLE4, fromLE4, List.getD_cons_zero, List.getD_cons_succ]
  have h32 : n < 4294967296 := lt_of_lt_of_le h (by norm_num)
  omega

theorem xor_ne_self (x t : Nat) (ht : t ≠ 0) : x ^^^ t ≠ x := by
  intro h
  apply ht
  have h2 := congrArg (fun y => x ^^^ y) h
  simpa [← Nat.xor_assoc, Nat.xor_self, Nat.zero_xor] using h2

/-! ## Frame codec lemmas -/

/-- Decoding a well-formed frame `cobsEncode v ++ [0]` with `4 ≤ v.length`
reaches the CRC comparison on the last four unstuffed bytes. -/
theorem decodeFrame_wrap (v : List Nat) (h4 : 4 ≤ v.length) :
    decodeFrame (cobsEncode v ++ [0]) =
      if crc32 (v.take (v.length - 4)) ≠ fromLE4 (v.drop (v.length - 4)) then
        DecodeResult.errCrc
      else DecodeResult.ok (v.take (v.length - 4)) := by
  have hlen := cobsEncode_length v
  have hlen5 : ¬ (cobsEncode v ++ [0]).length < 5 := by
    simp only [List.length_append, List.length_cons, List.length_nil]
    omega
  simp only [decodeFrame]
  rw [if_neg hlen5]
  have hsub : (cobsEncode v ++ [0]).length - 1 = (cobsEncode v).length := by
    simp
  rw [hsub, List.take_left]
  simp only [cobsDecode_cobsEncode]
  rw [if_neg (show ¬ v.length < 4 by omega)]

/-! ## Claims about the frame codec -/

/-- **C1** — Codec round trip: for every byte buffer `b` (including buffers
containing the delimiter byte `0x00`), decoding the frame produced by
encoding `b` (append the CRC32 of `b`, COBS-stuff, append the terminating
`0x00`) succeeds and, after stripping the 4-byte checksum, reproduces `b`
exactly. -/
theorem decode_encode_roundtrip (p : List Nat) (hp : ∀ b ∈ p, b < 256) :
    decodeFrame (encodeFrame p) = DecodeResult.ok p := by
  have hlen : (p ++ toLE4 (crc32 p)).length = p.length + 4 := by simp [toLE4]
  have h4 : 4 ≤ (p ++ toLE4 (crc32 p)).length := by omega
  rw [encodeFrame, decodeFrame_wrap _ h4]
  have hsub : (p ++ toLE4 (crc32 p)).length - 4 = p.length := by omega
  rw [hsub, List.take_left, List.drop_left, fromLE4_toLE4 _ (crc32_lt p hp)]
  simp

theorem decode_encode_roundtrip_witness :
    (∀ b ∈ [1, 2, 0], b < 256) ∧
      decodeFrame (encodeFrame [1, 2, 0]) = DecodeResult.ok [1, 2, 0] :=
  ⟨by decide, decode_encode_roundtrip [1, 2, 0] (by decide)⟩

/-- **C2** — Encoded-frame shape: `encodeMsg` appends the 4-byte
little-endian CRC32 (IEEE) of the payload to the payload, byte-stuffs the
result, and the byte `0x00` occurs nowhere in the encoded frame except as
the single final terminating byte.  (`encodeFrame` is a pure function, so
determinism and absence of side effects are inherent.) -/
theorem encode_frame_shape (p : List Nat) :
    encodeFrame p = cobsEncode (p ++ toLE4 (crc32 p)) ++ [0] ∧
    (0 : Nat) ∉ cobsEncode (p ++ toLE4 (crc32 p)) ∧
    (encodeFrame p).count 0 = 1 ∧
    (encodeFrame p).getLast? = some 0 := by
  refine ⟨rfl, cobsEncode_zero_not_mem _, ?_, ?_⟩
  · rw [encodeFrame, List.count_append,
      List.count_eq_zero.mpr (cobsEncode_zero_not_mem _)]
    simp
  · rw [encodeFrame, List.getLast?_concat]

/-- **C3** (code bug) — `decodeMsg` checks `len(b) < 5` on the *stuffed*
frame only; the wire frame `[0x01, 0x01, 0x01, 0x01, 0x00]` passes that
check, COBS-decodes to the 3-byte buffer `[0, 0, 0]`, and the subsequent
slice `b[len(b)-4:]` has a negative start index: the function panics instead
of returning the `EmptyFrame` error the specification prescribes for frames
whose unstuffed content is shorter than 5 bytes. -/
theorem decode_short_unstuffed_panics :
    decodeFrame [1, 1, 1, 1, 0] = DecodeResult.panicked := by
  have h : cobsDecode [1, 1, 1, 1] = some [0, 0, 0] :=
    cobsDecode_cobsEncode [0, 0, 0]
  simp [decodeFrame, h]

/-- **C4** — Checksum detection: flipping bit `j` of payload byte `i`
(corruption expressed in the unstuffed domain: the byte region before the
four trailing checksum bytes) makes decoding fail with the checksum error;
it never yields a successful parse of a wrong payload. -/
theorem checksum_detects_payload_bit_flip (p : List Nat) (i j : Nat)
    (hi : i < p.length) (hj : j < 8) (hb : ∀ b ∈ p, b < 256) :
    decodeFrame (cobsEncode (p.set i (p.get ⟨i, hi⟩ ^^^ (1 <<< j)) ++
      toLE4 (crc32 p)) ++ [0]) = DecodeResult.errCrc := by
  have hx : p.get ⟨i, hi⟩ < 256 := hb _ (List.get_mem p i hi)
  have hshift : (1 <<< j) < 256 := by
    rw [Nat.one_shiftLeft]
    calc 2 ^ j < 2 ^ 8 := Nat.pow_lt_pow_right (by norm_num) hj
    _ ≤ 256 := by norm_num
  have hc : p.get ⟨i, hi⟩ ^^^ (1 <<< j) < 256 := by
    have h8 := Nat.xor_lt_two_pow (n := 8) (by simpa using hx) (by simpa using hshift)
    simpa using h8
  have hcne : p.get ⟨i, hi⟩ ^^^ (1 <<< j) ≠ p.get ⟨i, hi⟩ := by
    apply xor_ne_self
    rw [Nat.one_shiftLeft]
    positivity
  have hqlen : (p.set i (p.get ⟨i, hi⟩ ^^^ (1 <<< j))).length = p.length := by
    simp
  have h4 : 4 ≤ ((p.set i (p.get ⟨i, hi⟩ ^^^ (1 <<< j))) ++ toLE4 (crc32 p)).length := by
    simp [toLE4]
  rw [decodeFrame_wrap _ h4]
  have hsub : ((p.set i (p.get ⟨i, hi⟩ ^^^ (1 <<< j))) ++ toLE4 (crc32 p)).length - 4 =
      (p.set i (p.get ⟨i, hi⟩ ^^^ (1 <<< j))).length := by
    simp [toLE4]
  rw [hsub, List.take_left, List.drop_left, fromLE4_toLE4 _ (crc32_lt p hb)]
  rw [if_pos (crc32_set_ne p i hi _ hb hc hcne)]

theorem checksum_detects_payload_bit_flip_witness :
    (0 : Nat) < 1 ∧
      decodeFrame (cobsEncode (([1] : List Nat).set 0
        (([1] : List Nat).get ⟨0, by norm_num⟩ ^^^ (1 <<< 0)) ++
        toLE4 (crc32 [1])) ++ [0]) = DecodeResult.errCrc :=
  ⟨by norm_num,
    checksum_detects_payload_bit_flip [1] 0 0 (by norm_num) (by norm_num) (by decide)⟩

/-! ## Claims about the writer loop and tags -/

/-- **C5** — Retry fidelity: `retryTimeout` is 250 ms, and for a device that
never acknowledges (`n` consecutive timer expiries) the writer transmits the
byte-for-byte identical frame `n + 1` times (the original send plus `n`
retransmissions, so at least 3 for every `n ≥ 3`), and the pending request
neither completes nor errors (no signal is sent to the requester). -/
theorem retry_retransmits_identical_frames (frame : List Nat) (nonce n : Nat) :
    retryTimeout = 250 ∧
      writerLoop frame nonce (List.replicate n WEvent.timeout) =
        (List.replicate (n + 1) frame, false) := by
  refine ⟨rfl, ?_⟩
  induction n with
  | zero => rfl
  | succ k ih => simp only [List.replicate_succ, writerLoop, ih]

theorem nonceAfter_eq (n0 : Nat) (h : n0 < uint32Mod) :
    ∀ i, nonceAfter n0 i = (n0 + i) % uint32Mod := by
  intro i
  induction i with
  | zero =>
    simp only [nonceAfter, Function.iterate_zero, id_eq]
    exact (Nat.mod_eq_of_lt h).symm
  | succ k ih =>
    have hstep : nonceAfter n0 (k + 1) = (nonceAfter n0 k + 1) % uint32Mod := by
      simp only [nonceAfter, Function.iterate_succ_apply']
    rw [hstep, ih]
    have hM : uint32Mod = 4294967296 := by norm_num [uint32Mod]
    rw [hM]
    omega

theorem mod255_add_ne (n a b : Nat) (hab : a < b) (hb : b - a < 255) :
    (n + a) % 255 ≠ (n + b) % 255 := by
  intro h
  have hdvd : 255 ∣ (n + b) - (n + a) :=
    (Nat.modEq_iff_dvd' (show n + a ≤ n + b by omega)).mp h
  have hle := Nat.le_of_dvd (show 0 < (n + b) - (n + a) by omega) hdvd
  omega

/-- **C6** (counterexample) — the tag is `nonce % 255` of a 32-bit counter
and `255 ∣ 2^32 - 1`, so with initial counter value `2^32 - 1` the first two
sends both get tag 0: a run of 255 consecutive sends that crosses the 32-bit
overflow does not produce pairwise distinct tags. -/
theorem tag_repeats_at_uint32_wrap :
    tagAt 4294967295 0 = 0 ∧ tagAt 4294967295 1 = 0 := by
  constructor <;> rfl

/-- **C6** (amended) — every assigned tag lies in `[0, 254]`; and provided
the run of 255 consecutive sends does not cross a 32-bit overflow of the
counter (`n0 + 255 ≤ 2^32`), its 255 tag values are pairwise distinct, so a
tag is reused only after full mod-255 wraparound. -/
theorem tags_distinct_without_overflow (n0 i j : Nat) (hrun : n0 + 255 ≤ 2 ^ 32)
    (hi : i < 255) (hj : j < 255) (hij : i ≠ j) :
    tagAt n0 i < 255 ∧ tagAt n0 i ≠ tagAt n0 j := by
  have hM : uint32Mod = 2 ^ 32 := rfl
  have hn0 : n0 < uint32Mod := by rw [hM]; omega
  have hvi : nonceAfter n0 i = n0 + i := by
    rw [nonceAfter_eq n0 hn0 i]
    exact Nat.mod_eq_of_lt (by rw [hM]; omega)
  have hvj : nonceAfter n0 j = n0 + j := by
    rw [nonceAfter_eq n0 hn0 j]
    exact Nat.mod_eq_of_lt (by rw [hM]; omega)
  constructor
  · exact Nat.mod_lt _ (by norm_num)
  · rw [tagAt, tagAt, hvi, hvj]
    rcases Nat.lt_or_ge i j with hlt | hge
    · exact mod255_add_ne n0 i j hlt (by omega)
    · exact (mod255_add_ne n0 j i (by omega) (by omega)).symm

theorem tags_distinct_without_overflow_witness :
    (0 : Nat) + 255 ≤ 2 ^ 32 ∧ (tagAt 0 0 < 255 ∧ tagAt 0 0 ≠ tagAt 0 1) :=
  ⟨by norm_num,
    tags_distinct_without_overflow 0 0 1 (by norm_num) (by norm_num) (by norm_num)
      (by norm_num)⟩

/-! ## Claims about the dispatcher -/

/-- **C7** (counterexample) — an acknowledgment arriving while no request is
pending is *not* ignored with no further effect: `handleFromMsg` blocks on
the unbuffered `acks` channel (the writer only receives from it while a
request is pending), so the dispatcher stalls with the ack and everything
behind it unprocessed.  Had the ack been dropped with no effect, the status
report behind it would have been applied, setting `cells` to 3 and leaving
no unconsumed input. -/
theorem spurious_ack_blocks_dispatcher :
    (dispatchIdle newDisplayState [InMsg.ack 5, InMsg.status [1, 2, 3]]).1.cells = 24 ∧
      (dispatchIdle newDisplayState [InMsg.ack 5, InMsg.status [1, 2, 3]]).2 =
        [InMsg.ack 5, InMsg.status [1, 2, 3]] := by
  constructor <;> rfl

/-- **C7** (amended) — an acknowledgment whose tag does not match the pending
request's tag never completes that request and does not crash the writer (it
is consumed by the `select` and the identical frame is immediately rewritten,
completion being whatever the remaining events produce); an acknowledgment
arriving when no request is pending does not crash the dispatcher, but blocks
the dispatcher lane with the state unchanged and the ack (and everything
after it) unprocessed until a new request arrives. -/
theorem ack_mismatch_tolerance (frame : List Nat) (nonce t : Nat)
    (evs : List WEvent) (st : DispState) (rest : List InMsg) (h : t ≠ nonce) :
    writerLoop frame nonce (WEvent.ack t :: evs) =
      (frame :: (writerLoop frame nonce evs).1, (writerLoop frame nonce evs).2) ∧
    dispatchIdle st (InMsg.ack t :: rest) = (st, InMsg.ack t :: rest) := by
  constructor
  · simp [writerLoop, h]
  · rfl

theorem ack_mismatch_tolerance_witness :
    (5 : Nat) ≠ 3 ∧
      writerLoop [9] 3 [WEvent.ack 5] = ([[9], [9]], false) ∧
      dispatchIdle newDisplayState [InMsg.ack 5] = (newDisplayState, [InMsg.ack 5]) := by
  refine ⟨by norm_num, ?_,
    (ack_mismatch_tolerance [9] 3 5 [] newDisplayState [] (by norm_num)).2⟩
  have h := (ack_mismatch_tolerance [9] 3 5 [] newDisplayState [] (by norm_num)).1
  rw [h]
  rfl

/-! ## Claims about the reader loop -/

/-- **C9** (code bug) — `readFrames` executes
`panic("failed to read from display")` when a read on the open connection
fails: the read error crashes the process instead of terminating the frame
reading loop in the orderly way the specification requires. -/
theorem read_error_panics :
    readFramesStep ReadEvent.readError = ReaderOutcome.crashed := rfl

/-! ## Text shaping lemmas -/

theorem utf8EncodeNat_len_pos (n : Nat) : 1 ≤ (utf8EncodeNat n).length := by
  unfold utf8EncodeNat
  split_ifs <;> simp

theorem utf8EncodeNat_len_ge3 (n : Nat) (h : 0x800 ≤ n) :
    3 ≤ (utf8EncodeNat n).length := by
  unfold utf8EncodeNat
  rw [if_neg (by omega), if_neg (by omega)]
  split_ifs <;> simp

theorem isWideNat_lower (n : Nat) (h : isWideNat n = true) : 0x1100 ≤ n := by
  have hp := of_decide_eq_true h
  rcases hp with h | h | h | h | h | h | h | h | h | h | h | h <;> omega

/-- A rune's display width never exceeds its UTF-8 byte count: wide runes
all lie at or above U+1100 and thus take at least three bytes. -/
theorem runeWidthNat_le (n : Nat) : runeWidthNat n ≤ (utf8EncodeNat n).length := by
  unfold runeWidthNat
  split_ifs with h1 h2 h3
  · exact Nat.zero_le _
  · exact Nat.zero_le _
  · calc (2 : Nat) ≤ 3 := by norm_num
      _ ≤ _ := utf8EncodeNat_len_ge3 n (by have := isWideNat_lower n h3; omega)
  · exact utf8EncodeNat_len_pos n

theorem lineWidth_le_bytes (l : List Char) : lineWidth l ≤ (utf8Bytes l).length := by
  induction l with
  | nil => simp [lineWidth, utf8Bytes]
  | cons c rest ih =>
    have hc := runeWidthNat_le c.toNat
    simp only [lineWidth, utf8Bytes, List.map_cons, List.flatten_cons,
      List.sum_cons, List.length_append, runeWidth, utf8EncodeChar] at *
    omega

theorem utf8Bytes_append (a b : List Char) :
    utf8Bytes (a ++ b) = utf8Bytes a ++ utf8Bytes b := by
  simp [utf8Bytes]

theorem utf8Bytes_replicate_space (k : Nat) :
    (utf8Bytes (List.replicate k ' ')).length = k := by
  induction k with
  | zero => rfl
  | succ m ih =>
    simp only [List.replicate_succ, utf8Bytes, List.map_cons, List.flatten_cons,
      List.length_append] at *
    rw [show (utf8EncodeChar ' ').length = 1 from rfl]
    omega

/-- Each shaped row is exactly 12 bytes: padding by display width adds at
least as many bytes as it is short of 12 (width never exceeds byte count),
and the byte truncation caps the row at 12. -/
theorem prepLineBytes_length (l : List Char) : (prepLineBytes l).length = 12 := by
  simp only [prepLineBytes, padToWidth]
  set l1 : List Char := if l = [] then [' '] else l with hl1
  have hw : lineWidth l1 ≤ (utf8Bytes l1).length := lineWidth_le_bytes l1
  have hlen : (utf8Bytes (l1 ++ List.replicate (12 - lineWidth l1) ' ')).length =
      (utf8Bytes l1).length + (12 - lineWidth l1) := by
    rw [utf8Bytes_append, List.length_append, utf8Bytes_replicate_space]
  split
  · next h => simp only [List.length_take]; omega
  · next h => omega

theorem prepText_length_eq (s : List Char) : (prepText s).length = 24 := by
  simp [prepText, prepLineBytes_length]

theorem utf8Step_size (b0 : Nat) (rest : List Nat) :
    1 ≤ (utf8Step (b0 :: rest)).2.1 ∧
      (utf8Step (b0 :: rest)).2.1 + (utf8Step (b0 :: rest)).2.2.length =
        rest.length + 1 := by
  rcases rest with _ | ⟨b1, rest2⟩
  · simp only [utf8Step]
    split_ifs <;> simp
  · rcases rest2 with _ | ⟨b2, rest3⟩
    · simp only [utf8Step]
      split_ifs <;> simp
    · rcases rest3 with _ | ⟨b3, rest4⟩
      · simp only [utf8Step]
        split_ifs <;> simp
      · simp only [utf8Step]
        split_ifs <;> simp <;> omega

/-- Every byte offset the range loop produces lies inside the byte string. -/
theorem utf8Iters_offset (fuel : Nat) : ∀ (off : Nat) (bs : List Nat),
    ∀ p ∈ utf8Iters fuel off bs, off ≤ p.1 ∧ p.1 < off + bs.length := by
  induction fuel with
  | zero =>
    intro off bs p hp
    simp [utf8Iters] at hp
  | succ f ih =>
    intro off bs p hp
    match bs with
    | [] => simp [utf8Iters] at hp
    | b0 :: rest =>
      rw [utf8Iters] at hp
      have hs := utf8Step_size b0 rest
      rcases List.mem_cons.mp hp with h | h
      · subst h
        simp only [List.length_cons]
        omega
      · have hb := ih (off + (utf8Step (b0 :: rest)).2.1) (utf8Step (b0 :: rest)).2.2 p h
        simp only [List.length_cons]
        omega

theorem decodeUtf8From_offset (bs : List Nat) (p : Nat × Nat)
    (hp : p ∈ decodeUtf8From 0 bs) : p.1 < bs.length := by
  have h := utf8Iters_offset bs.length 0 bs p hp
  omega

theorem setTextCmds_isSome_iff (cells : Nat) (bs : List Nat) :
    (setTextCmds cells bs).isSome ↔ ∀ p ∈ decodeUtf8From 0 bs, p.1 < cells := by
  simp only [setTextCmds]
  split
  · next h =>
    simp only [Option.isSome_some, true_iff]
    intro p hp
    exact of_decide_eq_true (List.all_eq_true.mp h p hp)
  · next h =>
    simp only [Option.isSome_none, Bool.false_eq_true, false_iff]
    intro hall
    exact h (List.all_eq_true.mpr fun p hp => decide_eq_true (hall p hp))

/-! ## Claims about text shaping -/

/-- **C8** (counterexample) — `PrepText` does not return 24 *characters* for
every input: the rows are truncated with the byte-level `line[:12]` and
padded by display width, so an input of thirteen EURO SIGN runes (U+20AC,
3 UTF-8 bytes, width 1) shapes to the rows `"€€€€"` (12 bytes, 4 runes) and
`"€"` + 9 spaces (12 bytes, 10 runes): 14 characters in all, not 24. -/
theorem prep_text_not_24_runes :
    (decodeUtf8From 0 (prepText (List.replicate 13 (Char.ofNat 0x20AC)))).length = 14 ∧
      (decodeUtf8From 0 (prepText (List.replicate 13 (Char.ofNat 0x20AC)))).length ≠ 24 :=
  ⟨by decide, by decide⟩

/-- **C8** (amended) — Text shaping: `PrepText` returns exactly 24 *bytes*
for every input (two rows of exactly 12 bytes each: an empty row replaced by
a single space, each row padded with trailing spaces to display width 12,
then truncated to 12 bytes); this is 24 characters exactly when every rune
of the shaped text is single-byte, as for ASCII inputs — in particular,
input `"hello world"` yields `"hello world "` followed by 12 spaces. -/
theorem prep_text_shape_bytes :
    (∀ s : List Char, (prepText s).length = 24) ∧
      prepText ("hello world".toList) =
        ("hello world".toList ++ List.replicate 13 ' ').map Char.toNat := by
  refine ⟨prepText_length_eq, ?_⟩
  decide

/-- **C10** (counterexample) — `SetText` ranges over the *byte* offsets of
the prepared 24-byte text, so a display state whose last status report had
fewer than 24 modules need not index out of bounds: the input
`"aaaa "` + four CJK runes (U+65E5, 3 UTF-8 bytes, width 2) prepares to
`"aaaa"` + 8 spaces + 4 CJK runes, whose rune offsets are 0..11, 12, 15, 18
and 21 — all below 22 — so with a 22-module status report `SetText`
succeeds instead of panicking. -/
theorem set_text_in_bounds_under_24_cells :
    (List.replicate 22 (0 : Nat)).length < 24 ∧
      (setTextCmds (updateStatus newDisplayState (List.replicate 22 0)).cells
        (prepText ("aaaa ".toList ++ List.replicate 4 (Char.ofNat 0x65E5)))).isSome
        = true :=
  ⟨by decide, by decide⟩

/-- **C10** (amended) — SetText index safety: `SetText` always prepares
exactly 24 bytes; the command array has length equal to the current cell
count (24 at construction, the module count of the last status report
afterwards) and is indexed at the byte offset of every rune of the prepared
text.  Every such offset is below 24, so a cell count of at least 24 is
always safe, and `SetText` is free of out-of-bounds indexing if and only if
every rune-start byte offset of the prepared text is below the cell count —
with fewer than 24 cells this fails exactly when some rune starts at or
beyond the cell count (always, when the prepared text is all single-byte
runes, whose offsets are 0..23; not always for multi-byte runes, which
leave offset gaps). -/
theorem set_text_index_safety_bytes (s : List Char) (st : DispState) (ms : List Nat) :
    (prepText s).length = 24 ∧
    newDisplayState.cells = 24 ∧
    (updateStatus st ms).cells = ms.length ∧
    (∀ p ∈ decodeUtf8From 0 (prepText s), p.1 < 24) ∧
    ((setTextCmds (updateStatus st ms).cells (prepText s)).isSome ↔
      ∀ p ∈ decodeUtf8From 0 (prepText s), p.1 < ms.length) := by
  refine ⟨prepText_length_eq s, rfl, rfl, ?_, ?_⟩
  · intro p hp
    have h := decodeUtf8From_offset _ p hp
    rwa [prepText_length_eq s] at h
  · exact setTextCmds_isSome_iff ms.length (prepText s)

theorem set_text_index_safety_bytes_witness :
    (prepText ("hi".toList)).length = 24 ∧
      ((setTextCmds (updateStatus newDisplayState (List.replicate 24 0)).cells
        (prepText ("hi".toList))).isSome ↔
        ∀ p ∈ decodeUtf8From 0 (prepText ("hi".toList)),
          p.1 < (List.replicate 24 (0 : Nat)).length) :=
  ⟨(set_text_index_safety_bytes ("hi".toList) newDisplayState
      (List.replicate 24 0)).1,
    (set_text_index_safety_bytes ("hi".toList) newDisplayState
      (List.replicate 24 0)).2.2.2.2⟩

/-! ## Model validation against known test vectors -/

/-- The CRC-32/ISO-HDLC check value: `crc32("123456789") = 0xCBF43926`,
matching Go `crc32.ChecksumIEEE`. -/
theorem crc32_check_value :
    crc32 [49, 50, 51, 52, 53, 54, 55, 56, 57] = 0xCBF43926 := by decide

/-- A standard COBS example: a delimiter byte inside the payload is dropped
and replaced by block structure. -/
theorem cobsEncode_example :
    cobsEncode [0x11, 0x22, 0x00, 0x33] = [0x03, 0x11, 0x22, 0x02, 0x33] := rfl

/-- A frame whose unstuffed content is exactly the 4 CRC bytes of the empty
payload decodes successfully (the Go length check sees only the stuffed
length), confirming the boundary behaviour behind the C3 finding. -/
theorem decode_four_byte_frame :
    decodeFrame [1, 1, 1, 1, 1, 0] = DecodeResult.ok [] := by
  have h : cobsDecode [1, 1, 1, 1, 1] = some [0, 0, 0, 0] :=
    cobsDecode_cobsEncode [0, 0, 0, 0]
  simp [decodeFrame, h, crc32, fromLE4, crcUpdate]

end Flapper
